import Mathlib

/-!
A shallow embedding of `src/stanza/text/dataset.py` (the `Dataset` container
and its operations) together with theorems about the embedded operations.

Conventions of the embedding:
* Python strings are embedded as `List Char` (`Str`).
* An `OrderedDict` is embedded as its list of entries, in insertion order
  (an ordered dictionary has pairwise-distinct keys, so an entry list with
  `Nodup` keys represents it faithfully; theorems that depend on key
  uniqueness carry that hypothesis explicitly).
* A Python exception is embedded as an error value (`Except`/`Option`);
  `InvalidFieldsException` carries the data interpolated into its message.
* `None` (the missing-value sentinel) is embedded as `Option.none`; a
  dataset whose values are serialized has value type `Option Str`, with
  `str(v) = v` for a string value.
* Mutation is embedded by explicit state passing: an operation that can
  raise midway through mutating returns both the outcome and the final
  state of the object.
-/

namespace StanzaDataset

abbrev Str := List Char

/-- Characters stripped by Python's argument-less `str.strip()`. -/
def isPySpace (c : Char) : Bool :=
  c = ' ' || c = '\t' || c = '\n' || c = '\r' || c = '\x0b' || c = '\x0c'

/-- Python `s.strip()`: remove leading and trailing whitespace. -/
def pyStrip (l : Str) : Str :=
  ((l.dropWhile isPySpace).reverse.dropWhile isPySpace).reverse

/-- Python `s.split(sep)` for a single-character separator: split at every
occurrence, keeping empty pieces; the empty string yields `[[]]`. -/
def splitOnChar (sep : Char) : Str → List Str
  | [] => [[]]
  | c :: t =>
    if c = sep then
      [] :: splitOnChar sep t
    else
      match splitOnChar sep t with
      | [] => [[c]]
      | h :: r => (c :: h) :: r

/-- Python `sep.join(pieces)` for a single-character separator. -/
def joinSep (sep : Char) : List Str → Str
  | [] => []
  | [p] => p
  | p :: q :: ps => p ++ sep :: joinSep sep (q :: ps)

/-- Python `'\t'.join(pieces)`. -/
def joinTab : List Str → Str := joinSep '\t'

/-- `List.mapM` specialized to `Option`, written as plain recursion: the
embedding of a Python loop whose body may raise, collecting one result per
element. -/
def mapMO (f : β → Option γ) : List β → Option (List γ)
  | [] => some []
  | b :: t =>
    match f b with
    | none => none
    | some v =>
      match mapMO f t with
      | none => none
      | some vs => some (v :: vs)

/-- Python `line.split('\t')`. -/
def splitTab : Str → List Str := splitOnChar '\t'

/-- Iterating a Python file object over the file's full contents: the lines,
with each line's trailing newline removed.  (Python keeps the trailing
newline on each yielded line; every consumer in `dataset.py` immediately
calls `.strip()`, for which the two representations agree.) -/
def pyLines (l : Str) : List Str :=
  if l = [] then []
  else
    let p := splitOnChar '\n' l
    if p.getLast? = some [] then p.dropLast else p

/-- Python `header[0].lstrip('# ')`: remove every leading character that is
`'#'` or `' '` (a character *set*, not the two-character prefix). -/
def lstripHashSpace (l : Str) : Str :=
  l.dropWhile (fun c => c = '#' || c = ' ')

/-- The data carried by the messages of `InvalidFieldsException`. -/
inductive InvalidFieldsException (κ : Type) where
  /-- "field {f1} has length {n1} but field {f2} has length {n2}" -/
  | lengthMismatch (f1 : κ) (n1 : Nat) (f2 : κ) (n2 : Nat)
  /-- "field {f} is missing in input data: ..." -/
  | missingField (f : κ)
  /-- "Converter specified for non-existent field {f}" -/
  | unknownConverterField (f : κ)
  deriving Repr, DecidableEq

/-- `Dataset.fields`: the ordered dictionary mapping a field name to the
list of that field's values, embedded as its entry list. -/
structure Dataset (κ α : Type) where
  fields : List (κ × List α)
  deriving Repr, DecidableEq

/-- The validation loop of `Dataset.__init__`: compare every remaining
field's length against the first field's length `len0`, raising at the
first field that disagrees. -/
def checkLengths (n0 : κ) (len0 : Nat) : List (κ × List α) → Option (InvalidFieldsException κ)
  | [] => none
  | (n, d) :: rest =>
    if d.length ≠ len0 then some (.lengthMismatch n0 len0 n d.length)
    else checkLengths n0 len0 rest

/-- `Dataset.__init__(fields)`: store the ordered field mapping after
checking that all columns have the first column's length. -/
def Dataset.init (fields : List (κ × List α)) : Except (InvalidFieldsException κ) (Dataset κ α) :=
  match fields with
  | [] => .ok ⟨fields⟩
  | (n0, d0) :: rest =>
    match checkLengths n0 d0.length rest with
    | some e => .error e
    | none => .ok ⟨fields⟩

/-- `Dataset.__len__`: 0 if there are no fields, otherwise the length of the
first field's column. -/
def Dataset.len (ds : Dataset κ α) : Nat :=
  match ds.fields with
  | [] => 0
  | (_, d) :: _ => d.length

/-- The field names, in insertion order (`self.fields.keys()`). -/
def Dataset.names (ds : Dataset κ α) : List κ := ds.fields.map Prod.fst

/-- The column stored for field `k` (`self.fields[k]`), if present. -/
def Dataset.col [DecidableEq κ] (ds : Dataset κ α) (k : κ) : Option (List α) :=
  (ds.fields.find? (fun p => p.1 = k)).map Prod.snd

/-- `Dataset.__getitem__` at an integer index: the ordered mapping from each
field name to that column's value at position `i`; `none` when some column
is too short (Python's `IndexError`). -/
def Dataset.getItem (ds : Dataset κ α) (i : Nat) : Option (List (κ × α)) :=
  mapMO (fun p => (p.2.get? i).map (fun v => (p.1, v))) ds.fields

/-- The token written for one value by `write_conll`: `'-' if v is None else
str(v)` (for a string value, `str(v) = v`). -/
def valueToken : Option Str → Str
  | none => ['-']
  | some s => s

/-- One data line of `write_conll` (without any trailing newline): the row at
index `i` with its values tab-joined, `none` on an `IndexError`. -/
def Dataset.rowLine (ds : Dataset Str (Option Str)) (i : Nat) : Option Str :=
  (ds.getItem i).map (fun row => joinTab (row.map (fun p => valueToken p.2)))

/-- The data lines produced by iterating the dataset in `write_conll`
(`for i, d in enumerate(self)`), without the trailing-newline handling;
`none` when iteration raises. -/
def Dataset.rowLines (ds : Dataset Str (Option Str)) : Option (List Str) :=
  mapMO ds.rowLine (List.range ds.len)

/-- `Dataset.write_conll`: the full byte content written to the file — the
header line `'# ' + '\t'.join(keys) + '\n'`, then for every row its line,
each but the last followed by `'\n'`.  `none` when iterating the dataset
raises (a column shorter than `len(self)`). -/
def Dataset.writeConll (ds : Dataset Str (Option Str)) : Option Str :=
  match ds.rowLines with
  | none => none
  | some lines =>
    some (('#' :: ' ' :: joinTab ds.names) ++ '\n' ::
      (lines.enum.map (fun p => if p.1 ≠ ds.len - 1 then p.2 ++ ['\n'] else p.2)).flatten)

/-- `OrderedDict([(head, []) for head in header]).keys()`: the header names
with later duplicates removed, keeping each name's first occurrence (all
initial values are `[]`, so the last-value-wins aspect of duplicate keys is
immaterial). -/
def dedupFirst [DecidableEq κ] : List κ → List κ
  | [] => []
  | k :: t => k :: (dedupFirst t).filter (fun x => x ≠ k)

/-- Parse one stripped data line of `load_conll`:
`[None if e == '-' else e for e in line.strip().split('\t')]`, then keep the
first `numFields` entries (the loop reads `rows[i]` only for `i` below the
number of fields); `none` when the line has fewer entries than fields
(Python's `IndexError` on `rows[i]`). -/
def parseDataLine (numFields : Nat) (l : Str) : Option (List (Option Str)) :=
  let toks := (splitTab l).map (fun e => if e = ['-'] then none else some e)
  if numFields ≤ toks.length then some (toks.take numFields) else none

/-- The field names extracted from the header line by `load_conll`: the
stripped line is tab-split, every leading `'#'`/`' '` character is removed
from the first token, and the names are the keys of the ordered dictionary
built over them (first occurrences). -/
def headerNames (headerLine : Str) : List Str :=
  dedupFirst
    (match splitTab (pyStrip headerLine) with
      | [] => []
      | h0 :: t => lstripHashSpace h0 :: t)

/-- The body of `Dataset.load_conll` acting on the file's list of lines:
fails (`none`) on an empty file; otherwise parses the header into field
names, appends one value per field for every non-blank stripped data line
(failing when a line has fewer entries than fields), and hands the columns
to the constructor. -/
def loadConllLines : List Str → Option (Dataset Str (Option Str))
  | [] => none
  | headerLine :: rest =>
    match mapMO (parseDataLine (headerNames headerLine).length)
        ((rest.map pyStrip).filter (fun l => l ≠ [])) with
    | none => none
    | some rows =>
      (Dataset.init ((headerNames headerLine).enum.map
        (fun p => (p.2, rows.map (fun r => r.getD p.1 none))))).toOption

/-- `Dataset.load_conll` on the full byte content of a file. -/
def loadConll (content : Str) : Option (Dataset Str (Option Str)) :=
  loadConllLines (pyLines content)

/-- A freshly copied field mapping, `OrderedDict([(name, data[:]) ...])`:
the same entries, with each column a fresh list of the same values (object
identity is not tracked by the embedding). -/
def copiedFields (ds : Dataset κ α) : List (κ × List α) :=
  ds.fields.map (fun p => (p.1, p.2.map id))

/-- Replace the column of every field named `name` by its image under `g`
(the element-wise in-place update loop of `convert`; an ordered dictionary
holds at most one entry per key). -/
def mapField [DecidableEq κ] (ds : Dataset κ α) (name : κ) (g : α → α) : Dataset κ α :=
  ⟨ds.fields.map (fun p => if p.1 = name then (p.1, p.2.map g) else p)⟩

/-- The converter loop of `Dataset.convert`, acting on the working dataset
`w`: for each `(name, g)` in order, raise `unknownConverterField` if `name`
is not a key of the *original* dataset's fields, otherwise transform `w`'s
column `name` element-wise by `g`.  Returns the outcome together with the
state of `w` when the loop stopped (needed because a raise can interrupt
the loop after earlier converters were already applied). -/
def convertGo [DecidableEq κ] (origNames : List κ) :
    List (κ × (α → α)) → Dataset κ α →
      Except (InvalidFieldsException κ) (Dataset κ α) × Dataset κ α
  | [], w => (.ok w, w)
  | (name, g) :: rest, w =>
    if origNames.contains name then
      convertGo origNames rest (mapField w name g)
    else (.error (.unknownConverterField name), w)

/-- `Dataset.convert(converters, in_place)`: returns the pair of
(the call's outcome, the final state of `self`).  With `in_place = false`
the loop works on `self.__class__(OrderedDict([(name, data[:]) ...]))`, a
fresh dataset with freshly copied columns, so `self` is returned unchanged;
with `in_place = true` the working dataset *is* `self`. -/
def Dataset.convert [DecidableEq κ] (ds : Dataset κ α) (converters : List (κ × (α → α)))
    (inPlace : Bool) :
    Except (InvalidFieldsException κ) (Dataset κ α) × Dataset κ α :=
  match (if inPlace then .ok ds else Dataset.init (copiedFields ds) :
      Except (InvalidFieldsException κ) (Dataset κ α)) with
  | .error e => (.error e, ds)
  | .ok w =>
    let r := convertGo ds.names converters w
    (r.1, if inPlace then r.2 else ds)

/-- `Dataset.shuffle`, with the permutation `order` produced by
`random.shuffle(range(len(self)))` passed in explicitly: every column is
replaced by `[data[i] for i in order]`.  `none` models an `IndexError`
(impossible when `order` permutes `range(len(self))` and the length
invariant holds). -/
def Dataset.shuffle (ds : Dataset κ α) (order : List Nat) : Option (Dataset κ α) :=
  (mapMO (fun p =>
    (mapMO (fun i => p.2.get? i) order).map (fun col => (p.1, col))) ds.fields).map
    (fun fields => ⟨fields⟩)

/-- An exception that `__setitem__` can raise: an `InvalidFieldsException`
from the completeness check, or an `IndexError` from list assignment at an
out-of-range integer index. -/
inductive SetItemError (κ : Type) where
  | invalidFields (e : InvalidFieldsException κ)
  | indexError
  deriving Repr, DecidableEq

/-- Python list assignment `data[key] = v` at a non-negative integer index:
`none` on an `IndexError`. -/
def listSetInt (l : List α) (key : Nat) (v : α) : Option (List α) :=
  if key < l.length then some (l.set key v) else none

/-- Python list slice assignment `data[start:stop] = xs` (no step): both
bounds are clamped to `[0, len]`, an empty or reversed range inserts at the
start bound. -/
def listSetSlice (l : List α) (start stop : Nat) (xs : List α) : List α :=
  let s := min start l.length
  let e := max (min stop l.length) s
  l.take s ++ xs ++ l.drop e

/-- Looking up key `n` in the mapping `value` (`value[n]` on the entry list
of an ordered dictionary): the value of the first entry whose key is `n`. -/
def lookupVal [DecidableEq κ] (value : List (κ × β)) (n : κ) : Option β :=
  (value.find? (fun p => p.1 = n)).map Prod.snd

/-- `Dataset.__setitem__` at an integer index, as the loop over
`self.fields.items()`: for each field in order, raise `missingField` if the
value mapping has no entry for it, otherwise assign into that column at
`key`.  Returns the final field entries (mutation already performed for
fields processed before a raise) together with the error, if any. -/
def setItemIntRun [DecidableEq κ] (value : List (κ × α)) (key : Nat) :
    List (κ × List α) → List (κ × List α) × Option (SetItemError κ)
  | [] => ([], none)
  | (n, col) :: rest =>
    match lookupVal value n with
    | none => ((n, col) :: rest, some (.invalidFields (.missingField n)))
    | some v =>
      match listSetInt col key v with
      | none => ((n, col) :: rest, some .indexError)
      | some col' =>
        let r := setItemIntRun value key rest
        ((n, col') :: r.1, r.2)

/-- `Dataset.__setitem__` at a slice, as the loop over
`self.fields.items()`: for each field in order, raise `missingField` if the
value mapping has no entry for it, otherwise slice-assign that field's
replacement sequence into the column.  Returns the final field entries
together with the error, if any. -/
def setItemSliceRun [DecidableEq κ] (value : List (κ × List α)) (start stop : Nat) :
    List (κ × List α) → List (κ × List α) × Option (InvalidFieldsException κ)
  | [] => ([], none)
  | (n, col) :: rest =>
    match lookupVal value n with
    | none => ((n, col) :: rest, some (.missingField n))
    | some xs =>
      let r := setItemSliceRun value start stop rest
      ((n, listSetSlice col start stop xs) :: r.1, r.2)

/-- Shape conditions on one written token under which the written CONLL
line survives `strip()` and `split('\t')` unchanged: nonempty, free of tab
and newline characters, and neither starting nor ending with a whitespace
character. -/
def tokenShape (s : Str) : Bool :=
  !s.isEmpty && s.all (fun c => !(c == '\t') && !(c == '\n')) &&
    (match s.head? with | some c => !isPySpace c | none => false) &&
    (match s.getLast? with | some c => !isPySpace c | none => false)

/-- Side condition of the amended round-trip statement on a field name: a
token shape that survives the line handling, whose first character is
moreover not `'#'` or `' '` (so that `lstrip('# ')` on the first header
token removes nothing of the name). -/
def goodName (nm : Str) : Bool :=
  tokenShape nm && (match nm.head? with | some c => !(c == '#') && !(c == ' ') | none => false)

/-- Side condition of the amended round-trip statement on a stored value:
the missing sentinel is always fine; a string value must have the
surviving token shape and must not be the literal `"-"` (which would be
read back as the missing sentinel). -/
def goodValue (v : Option Str) : Bool :=
  match v with
  | none => true
  | some s => tokenShape s && !(s == ['-'])

/-! ### Lemmas about the construction-time length check -/

theorem checkLengths_eq_none_iff {n0 : κ} {len0 : Nat} {l : List (κ × List α)} :
    checkLengths n0 len0 l = none ↔ ∀ p ∈ l, p.2.length = len0 := by
  induction l with
  | nil => simp [checkLengths]
  | cons hd tl ih =>
    obtain ⟨n, d⟩ := hd
    by_cases h : d.length = len0
    · simp [checkLengths, h, ih]
    · simp [checkLengths, h]

theorem checkLengths_eq_some {n0 : κ} {len0 : Nat} {l : List (κ × List α)}
    {e : InvalidFieldsException κ} (h : checkLengths n0 len0 l = some e) :
    ∃ k n, e = .lengthMismatch n0 len0 k n ∧ n ≠ len0 ∧ ∃ d, (k, d) ∈ l ∧ d.length = n := by
  induction l with
  | nil => simp [checkLengths] at h
  | cons p tl ih =>
    obtain ⟨n, d⟩ := p
    simp only [checkLengths] at h
    by_cases hlen : d.length = len0
    · rw [if_neg (not_not_intro hlen)] at h
      obtain ⟨k, m, he, hm, d', hd', hl⟩ := ih h
      exact ⟨k, m, he, hm, d', List.mem_cons_of_mem _ hd', hl⟩
    · rw [if_pos hlen] at h
      injection h with h
      exact ⟨n, d.length, h.symm, hlen, d, List.mem_cons_self _ _, rfl⟩

/-- C1: every successfully constructed `Dataset` has all columns of equal
length, `len` returns that common length, and an empty field mapping gives
length 0. -/
theorem spec_C1 (fields : List (κ × List α)) (ds : Dataset κ α)
    (h : Dataset.init fields = .ok ds) :
    (∀ p ∈ ds.fields, p.2.length = ds.len) ∧ (fields = [] → ds.len = 0) := by
  match hf : fields with
  | [] =>
    simp only [Dataset.init] at h
    cases h
    simp [Dataset.len]
  | (n0, d0) :: rest =>
    simp only [Dataset.init] at h
    match hc : checkLengths n0 d0.length rest with
    | some e => rw [hc] at h; cases h
    | none =>
      rw [hc] at h
      cases h
      refine ⟨?_, by simp⟩
      intro p hp
      have hall := checkLengths_eq_none_iff.mp hc
      rcases List.mem_cons.mp hp with h1 | h2
      · subst h1; rfl
      · exact hall p h2

/-- Witness for C1 at a concrete one-field dataset. -/
theorem spec_C1_witness :
    (∀ p ∈ (Dataset.mk [((['a'] : Str), [1, 2])] : Dataset Str Nat).fields,
        p.2.length = (Dataset.mk [((['a'] : Str), [1, 2])] : Dataset Str Nat).len) ∧
      (([((['a'] : Str), ([1, 2] : List Nat))]) = [] →
        (Dataset.mk [((['a'] : Str), [1, 2])] : Dataset Str Nat).len = 0) :=
  spec_C1 [((['a'] : Str), [1, 2])] (Dataset.mk [((['a'] : Str), [1, 2])]) rfl

/-- C5: constructing from a field mapping with two columns of different
lengths fails with a `lengthMismatch` error that names the first field with
its length and a field whose length differs with its length; moreover the
concrete mapping `{"a": [1,2,3], "b": [1,2]}` fails naming `a` (length 3)
and `b` (length 2). -/
theorem spec_C5 :
    (∀ (κ α : Type) (fields : List (κ × List α)),
        (∃ p ∈ fields, ∃ q ∈ fields, p.2.length ≠ q.2.length) →
        ∃ k0 d0 rest k n d,
          fields = (k0, d0) :: rest ∧
          Dataset.init fields = .error (.lengthMismatch k0 d0.length k n) ∧
          (k, d) ∈ fields ∧ d.length = n ∧ n ≠ d0.length) ∧
      Dataset.init [((['a'] : Str), ([1, 2, 3] : List Nat)), (['b'], [1, 2])] =
        .error (.lengthMismatch ['a'] 3 ['b'] 2) := by
  constructor
  · intro κ α fields h
    obtain ⟨p, hp, q, hq, hne⟩ := h
    match fields with
    | [] => cases hp
    | (k0, d0) :: rest =>
      refine ⟨k0, d0, rest, ?_⟩
      match hc : checkLengths k0 d0.length rest with
      | none =>
        exfalso
        have hall := checkLengths_eq_none_iff.mp hc
        have hlen : ∀ r ∈ (k0, d0) :: rest, r.2.length = d0.length := by
          intro r hr
          rcases List.mem_cons.mp hr with h1 | h2
          · subst h1; rfl
          · exact hall r h2
        exact hne ((hlen p hp).trans (hlen q hq).symm)
      | some e =>
        obtain ⟨k, n, he, hn, d, hd, hdn⟩ := checkLengths_eq_some hc
        subst he
        exact ⟨k, n, d, rfl, by simp [Dataset.init, hc], List.mem_cons_of_mem _ hd, hdn, hn⟩
  · rfl

/-- Witness for C5's universal part at the claim's concrete mapping. -/
theorem spec_C5_witness :
    ∃ k0 d0 rest k n d,
      ([((['a'] : Str), ([1, 2, 3] : List Nat)), (['b'], [1, 2])]) = (k0, d0) :: rest ∧
      Dataset.init [((['a'] : Str), ([1, 2, 3] : List Nat)), (['b'], [1, 2])] =
        .error (.lengthMismatch k0 d0.length k n) ∧
      (k, d) ∈ ([((['a'] : Str), ([1, 2, 3] : List Nat)), (['b'], [1, 2])]) ∧
      d.length = n ∧ n ≠ d0.length :=
  spec_C5.1 Str Nat [((['a'] : Str), [1, 2, 3]), (['b'], [1, 2])] (by decide)

/-- C10: a slice assignment whose replacement sequences have lengths
different from the number of selected positions succeeds with no error and
leaves the columns with unequal lengths, so the equal-length invariant no
longer holds and `len` no longer describes every column. -/
theorem spec_C10 :
    setItemSliceRun [((['a'] : Str), ([9, 9, 9] : List Nat)), (['b'], [8])] 0 1
        [((['a'] : Str), ([1, 2] : List Nat)), (['b'], [3, 4])] =
      ([(['a'], [9, 9, 9, 2]), (['b'], [8, 4])], none) ∧
      (Dataset.mk [((['a'] : Str), ([9, 9, 9, 2] : List Nat)), (['b'], [8, 4])]).len = 4 ∧
      ¬ (∀ p ∈ (Dataset.mk [((['a'] : Str), ([9, 9, 9, 2] : List Nat)), (['b'], [8, 4])]).fields,
          p.2.length =
            (Dataset.mk [((['a'] : Str), ([9, 9, 9, 2] : List Nat)), (['b'], [8, 4])]).len) := by
  refine ⟨by decide, by decide, ?_⟩
  intro h
  have := h (['b'], [8, 4]) (by decide)
  simp [Dataset.len] at this

/-- C4, counterexample: on the dataset `{a: [1], b: [2]}`, the indexed
assignment `ds[0] = {a: 5}` omits field `b`, and the call does raise
`missingField b` — but column `a` has already been mutated to `[5]` when
the exception is raised, so "no column of the dataset is mutated by the
failing call" is false. -/
theorem spec_C4_counterexample :
    setItemIntRun [((['a'] : Str), (5 : Nat))] 0 [((['a'] : Str), [1]), (['b'], [2])] =
      ([(['a'], [5]), (['b'], [2])], some (.invalidFields (.missingField ['b']))) ∧
      ([((['a'] : Str), ([5] : List Nat)), (['b'], [2])]) ≠
        [((['a'] : Str), [1]), (['b'], [2])] :=
  ⟨by decide, by decide⟩

/-- C4, amended: when the value mapping omits a field the dataset holds,
the indexed assignment fails with `missingField` naming the first such
field in field order; the columns of the fields *preceding* it have already
been assigned at the index, while its own column and all later columns are
left unchanged. -/
theorem spec_C4 [DecidableEq κ] (pre : List (κ × List α)) (n : κ) (col : List α)
    (post : List (κ × List α)) (value : List (κ × α)) (key : Nat)
    (hpre : ∀ p ∈ pre, (lookupVal value p.1).isSome)
    (hkey : ∀ p ∈ pre, key < p.2.length)
    (hn : lookupVal value n = none) :
    ∃ pre',
      setItemIntRun value key (pre ++ (n, col) :: post) =
        (pre' ++ (n, col) :: post, some (.invalidFields (.missingField n))) ∧
      pre'.length = pre.length ∧
      ∀ j p, pre.get? j = some p →
        ∃ v, lookupVal value p.1 = some v ∧ pre'.get? j = some (p.1, p.2.set key v) := by
  induction pre with
  | nil =>
    refine ⟨[], ?_, rfl, by intro j p h; cases h⟩
    simp [setItemIntRun, hn]
  | cons q pre ih =>
    obtain ⟨m, c⟩ := q
    obtain ⟨v, hv⟩ := Option.isSome_iff_exists.mp (hpre (m, c) (List.mem_cons_self _ _))
    have hklt : key < c.length := hkey (m, c) (List.mem_cons_self _ _)
    obtain ⟨pre', hrun, hlen, hget⟩ :=
      ih (fun p hp => hpre p (List.mem_cons_of_mem _ hp))
        (fun p hp => hkey p (List.mem_cons_of_mem _ hp))
    refine ⟨(m, c.set key v) :: pre', ?_, by simp [hlen], ?_⟩
    · simp only [List.cons_append, setItemIntRun, hv, listSetInt, if_pos hklt,
        List.append_eq, hrun]
    · intro j p hj
      match j with
      | 0 =>
        cases hj
        exact ⟨v, hv, rfl⟩
      | j + 1 => exact hget j p hj

/-- Witness for C4's amended statement on the dataset `{a: [1], b: [2]}`
with the assignment `ds[0] = {a: 5}`. -/
theorem spec_C4_witness :
    ∃ pre',
      setItemIntRun [((['a'] : Str), (5 : Nat))] 0
          ([(['a'], [1])] ++ (['b'], [2]) :: []) =
        (pre' ++ ((['b'] : Str), ([2] : List Nat)) :: [],
          some (.invalidFields (.missingField ['b']))) ∧
      pre'.length = [((['a'] : Str), ([1] : List Nat))].length ∧
      ∀ j p, [((['a'] : Str), ([1] : List Nat))].get? j = some p →
        ∃ v, lookupVal [((['a'] : Str), (5 : Nat))] p.1 = some v ∧
          pre'.get? j = some (p.1, p.2.set 0 v) :=
  spec_C4 [(['a'], [1])] ['b'] [2] [] [(['a'], 5)] 0
    (by decide) (by decide) (by rfl)

/-! ### Lemmas about `mapMO` -/

theorem Dataset.len_eq_fields (ds : Dataset κ α) :
    ds.len = match ds.fields with | [] => 0 | (_, d) :: _ => d.length := by
  cases ds
  rfl

theorem mapMO_eq_some_iff {f : β → Option γ} {l : List β} {r : List γ} :
    mapMO f l = some r ↔ List.Forall₂ (fun b v => f b = some v) l r := by
  induction l generalizing r with
  | nil =>
    constructor
    · intro h
      simp only [mapMO] at h
      cases h
      exact List.Forall₂.nil
    · intro h
      cases h
      rfl
  | cons b t ih =>
    constructor
    · intro h
      simp only [mapMO] at h
      match hf : f b with
      | none => rw [hf] at h; cases h
      | some v =>
        rw [hf] at h
        match hm : mapMO f t with
        | none => rw [hm] at h; cases h
        | some vs =>
          rw [hm] at h
          cases h
          exact List.Forall₂.cons hf (ih.mp hm)
    · intro h
      cases h with
      | cons hf ht =>
        simp only [mapMO, hf, ih.mpr ht]

theorem mapMO_exists_of_forall {f : β → Option γ} {l : List β}
    (h : ∀ b ∈ l, ∃ v, f b = some v) : ∃ r, mapMO f l = some r := by
  induction l with
  | nil => exact ⟨[], rfl⟩
  | cons b t ih =>
    obtain ⟨v, hv⟩ := h b (List.mem_cons_self _ _)
    obtain ⟨r, hr⟩ := ih (fun x hx => h x (List.mem_cons_of_mem _ hx))
    exact ⟨v :: r, by simp only [mapMO, hv, hr]⟩

theorem forall₂_get?_left {R : β → γ → Prop} {l : List β} {r : List γ}
    (h : List.Forall₂ R l r) :
    ∀ j a, l.get? j = some a → ∃ b, r.get? j = some b ∧ R a b := by
  induction h with
  | nil => intro j a hj; cases hj
  | cons hR ht ih =>
    intro j a hj
    match j with
    | 0 =>
      cases hj
      exact ⟨_, rfl, hR⟩
    | j + 1 => exact ih j a hj

theorem forall₂_mem_right {R : β → γ → Prop} {l : List β} {r : List γ}
    (h : List.Forall₂ R l r) : ∀ b ∈ r, ∃ a ∈ l, R a b := by
  induction h with
  | nil => intro b hb; cases hb
  | cons hR _ ih =>
    intro b hb
    rcases List.mem_cons.mp hb with h1 | h2
    · exact ⟨_, List.mem_cons_self _ _, h1 ▸ hR⟩
    · obtain ⟨a, ha, hab⟩ := ih b h2
      exact ⟨a, List.mem_cons_of_mem _ ha, hab⟩

theorem forall₂_map_eq {R : β → γ → Prop} {l : List β} {r : List γ}
    (h : List.Forall₂ R l r) (f : β → δ) (g : γ → δ)
    (hfg : ∀ a b, R a b → f a = g b) : l.map f = r.map g := by
  induction h with
  | nil => rfl
  | cons hR _ ih => simp [hfg _ _ hR, ih]

/-- C3: shuffling with the permutation `order` delivered by
`random.shuffle(range(len(self)))` succeeds and returns the reindexed
dataset: the field names are unchanged, the length is unchanged, every
column still has the common length, and for every field the value at new
position `jj` is the pre-shuffle value of that same field at position
`order[jj]` — one single permutation shared by all fields. -/
theorem spec_C3 (ds : Dataset κ α) (order : List Nat)
    (hinv : ∀ p ∈ ds.fields, p.2.length = ds.len)
    (hperm : order.Perm (List.range ds.len)) :
    ∃ ds', ds.shuffle order = some ds' ∧
      ds'.names = ds.names ∧
      ds'.len = ds.len ∧
      (∀ p ∈ ds'.fields, p.2.length = ds.len) ∧
      (∀ i ∈ order, i < ds.len) ∧
      ∀ j p p', ds.fields.get? j = some p → ds'.fields.get? j = some p' →
        p'.1 = p.1 ∧ ∀ jj i, order.get? jj = some i → p'.2.get? jj = p.2.get? i := by
  have horder : ∀ i ∈ order, i < ds.len := by
    intro i hi
    have := hperm.mem_iff.mp hi
    exact List.mem_range.mp this
  have hcol : ∀ p ∈ ds.fields, ∃ c,
      mapMO (fun i => p.2.get? i) order = some c := by
    intro p hp
    apply mapMO_exists_of_forall
    intro i hi
    have : i < p.2.length := by rw [hinv p hp]; exact horder i hi
    exact ⟨p.2.get ⟨i, this⟩, List.get?_eq_get this⟩
  obtain ⟨fields', hfields'⟩ := mapMO_exists_of_forall (l := ds.fields)
    (f := fun p => (mapMO (fun i => p.2.get? i) order).map (fun col => (p.1, col)))
    (by
      intro p hp
      obtain ⟨c, hc⟩ := hcol p hp
      refine ⟨(p.1, c), ?_⟩
      show Option.map (fun col => (p.1, col)) (mapMO (fun i => p.2.get? i) order) =
        some (p.1, c)
      rw [hc]
      rfl)
  have hF := mapMO_eq_some_iff.mp hfields'
  have hlenperm : order.length = ds.len := by
    have := hperm.length_eq
    simpa using this
  have hentry : ∀ p q, (mapMO (fun i => p.2.get? i) order).map
        (fun col => ((p : κ × List α).1, col)) = some q →
      q.1 = p.1 ∧ List.Forall₂ (fun i v => p.2.get? i = some v) order q.2 := by
    intro p q hq
    match hm : mapMO (fun i => p.2.get? i) order with
    | none => rw [hm] at hq; cases hq
    | some c =>
      rw [hm] at hq
      cases hq
      exact ⟨rfl, mapMO_eq_some_iff.mp hm⟩
  refine ⟨⟨fields'⟩, ?_, ?_, ?_, ?_, horder, ?_⟩
  · simp only [Dataset.shuffle, hfields', Option.map_some']
  · exact (forall₂_map_eq hF Prod.fst Prod.fst
      (fun p q hq => ((hentry p q hq).1).symm)).symm
  · rcases hds : ds.fields with _ | ⟨p, tl⟩
    · rw [hds] at hF
      have hnil : fields' = [] := List.forall₂_nil_left_iff.mp hF
      rw [Dataset.len_eq_fields, Dataset.len_eq_fields, hds, hnil]
    · rw [hds] at hF
      obtain ⟨q, tl', hpq, _, rfl⟩ := List.forall₂_cons_left_iff.mp hF
      have h2 := (hentry p q hpq).2
      have hlen : q.2.length = order.length := (List.Forall₂.length_eq h2).symm
      have hp : p ∈ ds.fields := hds ▸ List.mem_cons_self p tl
      rw [Dataset.len_eq_fields, Dataset.len_eq_fields, hds]
      exact hlen.trans (hlenperm.trans (hinv p hp).symm)
  · intro p' hp'
    obtain ⟨p, _, hR⟩ := forall₂_mem_right hF p' hp'
    have h2 := (hentry p p' hR).2
    have : p'.2.length = order.length := (List.Forall₂.length_eq h2).symm
    rw [this, hlenperm]
  · intro j p p' hp hp'
    obtain ⟨q, hq, hRq⟩ := forall₂_get?_left hF j p hp
    rw [hp'] at hq
    cases hq
    obtain ⟨h1, h2⟩ := hentry p p' hRq
    refine ⟨h1, ?_⟩
    intro jj i hjj
    obtain ⟨v, hv, hR⟩ := forall₂_get?_left h2 jj i hjj
    rw [hv, hR]

/-- Witness for C3 on the dataset `{a: [10,20,30], b: [1,2,3]}` with the
permutation `[2,0,1]`. -/
theorem spec_C3_witness :
    ∃ ds',
      (Dataset.mk [((['a'] : Str), ([10, 20, 30] : List Nat)),
          (['b'], [1, 2, 3])]).shuffle [2, 0, 1] = some ds' ∧
      ds'.names = (Dataset.mk [((['a'] : Str), ([10, 20, 30] : List Nat)),
          (['b'], [1, 2, 3])]).names ∧
      ds'.len = (Dataset.mk [((['a'] : Str), ([10, 20, 30] : List Nat)),
          (['b'], [1, 2, 3])]).len ∧
      (∀ p ∈ ds'.fields, p.2.length =
        (Dataset.mk [((['a'] : Str), ([10, 20, 30] : List Nat)), (['b'], [1, 2, 3])]).len) ∧
      (∀ i ∈ [2, 0, 1], i <
        (Dataset.mk [((['a'] : Str), ([10, 20, 30] : List Nat)), (['b'], [1, 2, 3])]).len) ∧
      ∀ j p p',
        (Dataset.mk [((['a'] : Str), ([10, 20, 30] : List Nat)),
          (['b'], [1, 2, 3])]).fields.get? j = some p →
        ds'.fields.get? j = some p' →
        p'.1 = p.1 ∧ ∀ jj i, ([2, 0, 1] : List Nat).get? jj = some i →
          p'.2.get? jj = p.2.get? i :=
  spec_C3 (Dataset.mk [((['a'] : Str), [10, 20, 30]), (['b'], [1, 2, 3])]) [2, 0, 1]
    (by decide) (by decide)

/-! ### Lemmas about construction success, copying and `mapField` -/

theorem init_ok_of_invariant (fields : List (κ × List α))
    (h : ∀ p ∈ fields, p.2.length = (Dataset.mk fields).len) :
    Dataset.init fields = .ok ⟨fields⟩ := by
  match fields with
  | [] => rfl
  | (n0, d0) :: rest =>
    have hlen : (Dataset.mk ((n0, d0) :: rest)).len = d0.length := rfl
    have hnone : checkLengths n0 d0.length rest = none := by
      apply checkLengths_eq_none_iff.mpr
      intro p hp
      rw [← hlen]
      exact h p (List.mem_cons_of_mem _ hp)
    simp [Dataset.init, hnone]

theorem copiedFields_eq (ds : Dataset κ α) : copiedFields ds = ds.fields := by
  unfold copiedFields
  have : (fun p : κ × List α => (p.1, p.2.map id)) = id := by
    funext p
    simp
  rw [this, List.map_id]

theorem names_mapField [DecidableEq κ] (ds : Dataset κ α) (f : κ) (g : α → α) :
    (mapField ds f g).names = ds.names := by
  unfold mapField Dataset.names
  rw [List.map_map]
  apply List.map_congr_left
  intro p _
  by_cases h : p.1 = f <;> simp [h]

theorem find?_key_map [DecidableEq κ] (l : List (κ × List α)) (f k : κ) (g : α → α) :
    (l.map (fun p => if p.1 = f then (p.1, p.2.map g) else p)).find?
        (fun p => p.1 = k) =
      (l.find? (fun p => p.1 = k)).map
        (fun p => if p.1 = f then (p.1, p.2.map g) else p) := by
  induction l with
  | nil => rfl
  | cons p t ih =>
    rw [List.map_cons]
    have hkey : (if p.1 = f then (p.1, p.2.map g) else p).1 = p.1 := by
      by_cases h : p.1 = f
      · rw [if_pos h]
      · rw [if_neg h]
    by_cases hk : p.1 = k
    · rw [List.find?_cons_of_pos _ (by rw [hkey]; simpa using hk),
        List.find?_cons_of_pos _ (by simpa using hk), Option.map_some']
    · rw [List.find?_cons_of_neg _ (by rw [hkey]; simpa using hk),
        List.find?_cons_of_neg _ (by simpa using hk)]
      exact ih

theorem col_mapField_self [DecidableEq κ] (ds : Dataset κ α) (f : κ) (g : α → α) :
    (mapField ds f g).col f = (ds.col f).map (fun c => c.map g) := by
  show ((ds.fields.map _).find? _).map Prod.snd =
    ((ds.fields.find? (fun p => p.1 = f)).map Prod.snd).map (fun c => c.map g)
  rw [find?_key_map]
  match hfind : ds.fields.find? (fun p => p.1 = f) with
  | none => rw [hfind]; rfl
  | some p =>
    have hp : p.1 = f := by simpa using List.find?_some hfind
    rw [hfind]
    simp [hp]

theorem col_mapField_ne [DecidableEq κ] (ds : Dataset κ α) (f k : κ) (g : α → α)
    (hk : k ≠ f) : (mapField ds f g).col k = ds.col k := by
  show ((ds.fields.map _).find? _).map Prod.snd =
    (ds.fields.find? (fun p => p.1 = k)).map Prod.snd
  rw [find?_key_map]
  match hfind : ds.fields.find? (fun p => p.1 = k) with
  | none => rw [hfind]; rfl
  | some p =>
    have hp : p.1 = k := by simpa using List.find?_some hfind
    have hpf : ¬p.1 = f := fun hc => hk (hp.symm.trans hc)
    rw [hfind]
    simp [hpf]

/-- C6: `convert({f: g}, in_place=false)` on a dataset containing field `f`
returns a dataset whose column `f` is the element-wise image under `g` of
the original column `f` (same order and length, being a `List.map`), whose
other columns equal the original's by value, and leaves the original
dataset unchanged. -/
theorem spec_C6 [DecidableEq κ] (ds : Dataset κ α) (f : κ) (g : α → α)
    (hinv : ∀ p ∈ ds.fields, p.2.length = ds.len) (hf : f ∈ ds.names) :
    ∃ ds', ds.convert [(f, g)] false = (.ok ds', ds) ∧
      ds'.names = ds.names ∧
      ds'.col f = (ds.col f).map (fun c => c.map g) ∧
      ∀ k, k ≠ f → ds'.col k = ds.col k := by
  refine ⟨mapField ds f g, ?_, names_mapField ds f g, col_mapField_self ds f g,
    fun k hk => col_mapField_ne ds f k g hk⟩
  have hinit : Dataset.init (copiedFields ds) = .ok ds := by
    rw [copiedFields_eq]
    have := init_ok_of_invariant ds.fields (by intro p hp; exact hinv p hp)
    cases ds
    exact this
  simp [Dataset.convert, hinit, convertGo, hf]

/-- Witness for C6 on `{a: [1,2], b: [5,6]}` with converter `a ↦ (· + 100)`. -/
theorem spec_C6_witness :
    ∃ ds',
      (Dataset.mk [((['a'] : Str), ([1, 2] : List Nat)), (['b'], [5, 6])]).convert
          [(['a'], (· + 100))] false =
        (.ok ds', Dataset.mk [((['a'] : Str), ([1, 2] : List Nat)), (['b'], [5, 6])]) ∧
      ds'.names =
        (Dataset.mk [((['a'] : Str), ([1, 2] : List Nat)), (['b'], [5, 6])]).names ∧
      ds'.col ['a'] =
        ((Dataset.mk [((['a'] : Str), ([1, 2] : List Nat)), (['b'], [5, 6])]).col ['a']).map
          (fun c => c.map (· + 100)) ∧
      ∀ k, k ≠ ['a'] →
        ds'.col k =
          (Dataset.mk [((['a'] : Str), ([1, 2] : List Nat)), (['b'], [5, 6])]).col k :=
  spec_C6 (Dataset.mk [((['a'] : Str), [1, 2]), (['b'], [5, 6])]) ['a'] (· + 100)
    (by decide) (by decide)

/-- The converter loop raises `unknownConverterField` at the first converter
whose key names no existing field, whatever the working dataset. -/
theorem convertGo_error [DecidableEq κ] (origNames : List κ)
    (convs : List (κ × (α → α))) (hbad : ∃ p ∈ convs, p.1 ∉ origNames) :
    ∀ w : Dataset κ α, ∃ f, f ∉ origNames ∧ (∃ g, (f, g) ∈ convs) ∧
      (convertGo origNames convs w).1 = .error (.unknownConverterField f) := by
  induction convs with
  | nil =>
    obtain ⟨p, hp, _⟩ := hbad
    cases hp
  | cons q rest ih =>
    obtain ⟨n, g⟩ := q
    intro w
    by_cases hn : n ∈ origNames
    · have hrest : ∃ p ∈ rest, p.1 ∉ origNames := by
        obtain ⟨p, hp, hnot⟩ := hbad
        rcases List.mem_cons.mp hp with h1 | h2
        · exact absurd (show p.1 ∈ origNames by rw [h1]; exact hn) hnot
        · exact ⟨p, h2, hnot⟩
      obtain ⟨f, hf1, ⟨g', hg'⟩, hf3⟩ := ih hrest (mapField w n g)
      exact ⟨f, hf1, ⟨g', List.mem_cons_of_mem _ hg'⟩,
        by simpa [convertGo, hn] using hf3⟩
    · refine ⟨n, hn, ⟨g, List.mem_cons_self _ _⟩, ?_⟩
      simp [convertGo, hn]

/-- C7: `convert` with a converter mapping containing a key that names no
existing field fails with `unknownConverterField` naming such a field, and
with `in_place=false` the original dataset is returned unchanged even
though the call fails. -/
theorem spec_C7 [DecidableEq κ] (ds : Dataset κ α) (convs : List (κ × (α → α)))
    (hinv : ∀ p ∈ ds.fields, p.2.length = ds.len)
    (hbad : ∃ p ∈ convs, p.1 ∉ ds.names) :
    ∃ f, f ∉ ds.names ∧ (∃ g, (f, g) ∈ convs) ∧
      ds.convert convs false = (.error (.unknownConverterField f), ds) := by
  have hinit : Dataset.init (copiedFields ds) = .ok ds := by
    rw [copiedFields_eq]
    have := init_ok_of_invariant ds.fields (by intro p hp; exact hinv p hp)
    cases ds
    exact this
  obtain ⟨f, hf1, hf2, hf3⟩ := convertGo_error ds.names convs hbad ds
  refine ⟨f, hf1, hf2, ?_⟩
  simp only [Dataset.convert, hinit]
  exact Prod.ext hf3 rfl

/-- Witness for C7 on `{a: [1,2]}` with the converter mapping `{c: id}`. -/
theorem spec_C7_witness :
    ∃ f, f ∉ (Dataset.mk [((['a'] : Str), ([1, 2] : List Nat))]).names ∧
      (∃ g, (f, g) ∈ [((['c'] : Str), (id : Nat → Nat))]) ∧
      (Dataset.mk [((['a'] : Str), ([1, 2] : List Nat))]).convert
          [(['c'], id)] false =
        (.error (.unknownConverterField f),
          Dataset.mk [((['a'] : Str), ([1, 2] : List Nat))]) :=
  spec_C7 (Dataset.mk [((['a'] : Str), [1, 2])]) [(['c'], id)]
    (by decide) ⟨(['c'], id), List.mem_cons_self _ _, by decide⟩

/-! ### The trailing-newline discipline of `write_conll` -/

/-- The loop `line += '\n' if i != total - 1`, concatenated over the lines,
is exactly a newline-join: every line but the last is newline-terminated
and the last is not. -/
theorem flat_enumFrom_join (c : Char) (ls : List Str) (k total : Nat)
    (h : k + ls.length = total) :
    ((List.enumFrom k ls).map
        (fun p => if p.1 ≠ total - 1 then p.2 ++ [c] else p.2)).flatten =
      joinSep c ls := by
  induction ls generalizing k with
  | nil => rfl
  | cons x t ih =>
    have h' : k + t.length + 1 = total := by
      simp only [List.length_cons] at h
      omega
    rw [List.enumFrom_cons, List.map_cons, List.flatten_cons]
    match t with
    | [] =>
      have hk : ¬k ≠ total - 1 := by
        simp only [List.length_nil] at h'
        omega
      rw [if_neg hk]
      simp [joinSep]
    | y :: t' =>
      have hk : k ≠ total - 1 := by
        simp only [List.length_cons] at h'
        omega
      rw [if_pos hk, ih (k + 1) (by simp only [List.length_cons] at h' ⊢; omega)]
      show (x ++ [c]) ++ joinSep c (y :: t') = joinSep c (x :: y :: t')
      rw [List.append_assoc]
      rfl

/-- C8: the content written by `write_conll` is the header line
`'# ' ++ tab-joined field names ++ '\n'` followed by the row lines joined
by `'\n'` — each row's line except the final one newline-terminated, the
final one not — where each row's line is its values tab-joined with `'-'`
written for a missing value. -/
theorem spec_C8 (ds : Dataset Str (Option Str)) (lines : List Str)
    (h : ds.rowLines = some lines) :
    ds.writeConll =
      some (('#' :: ' ' :: joinTab ds.names) ++ '\n' :: joinSep '\n' lines) ∧
      lines.length = ds.len ∧
      ∀ i, i < ds.len → ∃ row, ds.getItem i = some row ∧
        lines.get? i = some (joinTab (row.map (fun p => valueToken p.2))) := by
  have hF := mapMO_eq_some_iff.mp h
  have hlen : lines.length = ds.len := by
    have := List.Forall₂.length_eq hF
    simpa using this.symm
  refine ⟨?_, hlen, ?_⟩
  · have hw : ds.writeConll = some (('#' :: ' ' :: joinTab ds.names) ++ '\n' ::
        (lines.enum.map (fun p => if p.1 ≠ ds.len - 1 then p.2 ++ ['\n'] else p.2)).flatten) := by
      unfold Dataset.writeConll
      rw [h]
    have hj := flat_enumFrom_join '\n' lines 0 ds.len (by simpa using hlen)
    rw [hw, List.enum_eq_enumFrom, hj]
  · intro i hi
    have hr : (List.range ds.len).get? i = some i := List.get?_range hi
    obtain ⟨l, hl, hRl⟩ := forall₂_get?_left hF i i hr
    unfold Dataset.rowLine at hRl
    match hrow : ds.getItem i with
    | none => rw [hrow] at hRl; cases hRl
    | some row =>
      rw [hrow] at hRl
      cases hRl
      exact ⟨row, rfl, hl⟩

/-- Witness for C8 on the dataset `{word: [Alice, Bob], tag: [NNP, missing]}`. -/
theorem spec_C8_witness :
    (Dataset.mk [("word".data, [some "Alice".data, some "Bob".data]),
        ("tag".data, [some "NNP".data, none])]).writeConll =
      some (('#' :: ' ' :: joinTab (Dataset.mk [("word".data, [some "Alice".data, some "Bob".data]),
          ("tag".data, [some "NNP".data, none])]).names) ++
        '\n' :: joinSep '\n' ["Alice\tNNP".data, "Bob\t-".data]) ∧
      (["Alice\tNNP".data, "Bob\t-".data] : List Str).length =
        (Dataset.mk [("word".data, [some "Alice".data, some "Bob".data]),
          ("tag".data, [some "NNP".data, none])]).len ∧
      ∀ i, i < (Dataset.mk [("word".data, [some "Alice".data, some "Bob".data]),
          ("tag".data, [some "NNP".data, none])]).len →
        ∃ row, (Dataset.mk [("word".data, [some "Alice".data, some "Bob".data]),
            ("tag".data, [some "NNP".data, none])]).getItem i = some row ∧
          (["Alice\tNNP".data, "Bob\t-".data] : List Str).get? i =
            some (joinTab (row.map (fun p => valueToken p.2))) :=
  spec_C8 (Dataset.mk [("word".data, [some "Alice".data, some "Bob".data]),
    ("tag".data, [some "NNP".data, none])]) ["Alice\tNNP".data, "Bob\t-".data] (by decide)

/-! ### What `load_conll` does to the header -/

theorem init_ok_eq (fields : List (κ × List α)) (ds : Dataset κ α)
    (h : Dataset.init fields = .ok ds) : ds = ⟨fields⟩ := by
  match fields with
  | [] =>
    cases h
    rfl
  | (n0, d0) :: rest =>
    simp only [Dataset.init] at h
    match hc : checkLengths n0 d0.length rest with
    | some e => rw [hc] at h; cases h
    | none =>
      rw [hc] at h
      cases h
      rfl

/-- C9, counterexample: loading a file whose header line is `"# #a"` yields
the field name `"a"` — the code strips *every* leading `'#'` and `' '`
character from the first token (Python's `lstrip('# ')` takes a character
set) — whereas stripping exactly the two-character prefix `"# "` would
yield `"#a"`. -/
theorem spec_C9_counterexample :
    loadConll ('#' :: ' ' :: '#' :: 'a' :: '\n' :: 'x' :: []) =
      some ⟨[(['a'], [some ['x']])]⟩ ∧
      (Dataset.mk [((['a'] : Str), [some (['x'] : Str)])]).names = [['a']] ∧
      (['a'] : Str) ≠ ['#', 'a'] :=
  ⟨by decide, by decide, by decide⟩

/-- C9, amended: `load_conll` takes the dataset's field names, in order,
from the tab-separated tokens of the whitespace-stripped header line, after
removing from the first token every leading character that is `'#'` or
`' '` (not just one literal `"# "` prefix), and dropping later duplicate
names. -/
theorem spec_C9 (content : Str) (hl : Str) (rest : List Str) (h0 : Str) (t : List Str)
    (hlines : pyLines content = hl :: rest)
    (hsplit : splitTab (pyStrip hl) = h0 :: t)
    (ds : Dataset Str (Option Str)) (hload : loadConll content = some ds) :
    ds.names = dedupFirst (lstripHashSpace h0 :: t) := by
  have hnames : headerNames hl = dedupFirst (lstripHashSpace h0 :: t) := by
    unfold headerNames
    rw [hsplit]
  unfold loadConll at hload
  rw [hlines] at hload
  simp only [loadConllLines] at hload
  split at hload
  · cases hload
  · rename_i rows hrows
    unfold Except.toOption at hload
    split at hload
    · rename_i d hinit
      cases hload
      rw [init_ok_eq _ _ hinit]
      show (List.map Prod.fst (List.map _ (List.enum _))) = _
      rw [List.map_map]
      show List.map Prod.snd (List.enum (headerNames hl)) = _
      rw [List.enum_map_snd, hnames]
    · cases hload

/-- Witness for C9's amended statement on the file `"# #a\nx"`. -/
theorem spec_C9_witness :
    (Dataset.mk [((['a'] : Str), [some (['x'] : Str)])]).names =
      dedupFirst (lstripHashSpace ['#', ' ', '#', 'a'] :: []) :=
  spec_C9 ('#' :: ' ' :: '#' :: 'a' :: '\n' :: 'x' :: [])
    ['#', ' ', '#', 'a'] [['x']] ['#', ' ', '#', 'a'] []
    (by decide) (by decide)
    (Dataset.mk [((['a'] : Str), [some (['x'] : Str)])]) (by decide)

/-! ### String toolkit: `strip`, `split`, `join` and their interaction -/

theorem mem_of_getLast?_eq (l : List β) (a : β) (h : l.getLast? = some a) : a ∈ l := by
  induction l with
  | nil => cases h
  | cons x t ih =>
    match t with
    | [] =>
      cases h
      exact List.mem_cons_self _ _
    | y :: t' =>
      rw [List.getLast?_cons_cons] at h
      exact List.mem_cons_of_mem _ (ih h)

theorem getLast?_cons_of_ne_nil (c : Char) (l : Str) (h : l ≠ []) :
    (c :: l).getLast? = l.getLast? := by
  match l with
  | [] => cases h rfl
  | x :: t => exact List.getLast?_cons_cons

theorem dropWhile_eq_self_of_head (p : Char → Bool) (l : Str)
    (h : ∀ c, l.head? = some c → p c = false) : l.dropWhile p = l := by
  match l with
  | [] => rfl
  | x :: t =>
    rw [List.dropWhile_cons, if_neg]
    simp [h x rfl]

theorem pyStrip_eq_self (l : Str) (h1 : ∀ c, l.head? = some c → isPySpace c = false)
    (h2 : ∀ c, l.getLast? = some c → isPySpace c = false) : pyStrip l = l := by
  unfold pyStrip
  rw [dropWhile_eq_self_of_head _ l h1]
  rw [dropWhile_eq_self_of_head _ l.reverse
    (fun c hc => h2 c (by rwa [List.head?_reverse] at hc))]
  exact List.reverse_reverse l

theorem splitOnChar_append (sep : Char) (a : Str) (ha : sep ∉ a) (b : Str)
    {h : Str} {t : List Str} (hb : splitOnChar sep b = h :: t) :
    splitOnChar sep (a ++ b) = (a ++ h) :: t := by
  induction a with
  | nil => simpa using hb
  | cons c a ih =>
    have hc : ¬c = sep := fun hcs => ha (hcs ▸ List.mem_cons_self _ _)
    have ih' := ih (fun hm => ha (List.mem_cons_of_mem _ hm))
    rw [List.cons_append]
    show splitOnChar sep (c :: (a ++ b)) = ((c :: a) ++ h) :: t
    simp only [splitOnChar, if_neg hc, ih', List.cons_append]

theorem splitOnChar_of_not_mem {sep : Char} (l : Str) (h : sep ∉ l) :
    splitOnChar sep l = [l] := by
  have hb : splitOnChar sep ([] : Str) = [] :: [] := rfl
  simpa using splitOnChar_append sep l h [] hb

theorem splitOnChar_joinSep {sep : Char} (ps : List Str) (hne : ps ≠ [])
    (h : ∀ p ∈ ps, sep ∉ p) : splitOnChar sep (joinSep sep ps) = ps := by
  induction ps with
  | nil => cases hne rfl
  | cons p ps ih =>
    match ps with
    | [] => exact splitOnChar_of_not_mem p (h p (List.mem_cons_self _ _))
    | q :: rest =>
      have hsplit := ih (by simp) (fun x hx => h x (List.mem_cons_of_mem _ hx))
      show splitOnChar sep (p ++ sep :: joinSep sep (q :: rest)) = p :: q :: rest
      have hb : splitOnChar sep (sep :: joinSep sep (q :: rest)) = [] :: q :: rest := by
        simp [splitOnChar, hsplit]
      rw [splitOnChar_append sep p (h p (List.mem_cons_self _ _)) _ hb]
      simp

theorem not_mem_joinSep {c sep : Char} (hc : c ≠ sep) (ps : List Str)
    (h : ∀ p ∈ ps, c ∉ p) : c ∉ joinSep sep ps := by
  induction ps with
  | nil => simp [joinSep]
  | cons p ps ih =>
    match ps with
    | [] => exact h p (List.mem_cons_self _ _)
    | q :: rest =>
      show c ∉ p ++ sep :: joinSep sep (q :: rest)
      intro hmem
      rcases List.mem_append.mp hmem with h1 | h2
      · exact h p (List.mem_cons_self _ _) h1
      · rcases List.mem_cons.mp h2 with h3 | h4
        · exact hc h3
        · exact ih (fun x hx => h x (List.mem_cons_of_mem _ hx)) h4

theorem joinSep_ne_nil {sep : Char} (p : Str) (ps : List Str) (hp : p ≠ []) :
    joinSep sep (p :: ps) ≠ [] := by
  match ps with
  | [] => exact hp
  | q :: rest =>
    show p ++ sep :: joinSep sep (q :: rest) ≠ []
    simp

theorem head?_joinSep {sep : Char} (p : Str) (ps : List Str) (hp : p ≠ []) :
    (joinSep sep (p :: ps)).head? = p.head? := by
  match ps with
  | [] => rfl
  | q :: rest =>
    show (p ++ sep :: joinSep sep (q :: rest)).head? = p.head?
    match p with
    | [] => cases hp rfl
    | a :: p' => rfl

theorem getLast?_joinSep (sep : Char) (ps : List Str) (hne : ps ≠ [])
    (h : ∀ p ∈ ps, p ≠ []) :
    ∃ q, ps.getLast? = some q ∧ (joinSep sep ps).getLast? = q.getLast? := by
  induction ps with
  | nil => cases hne rfl
  | cons p ps ih =>
    match ps with
    | [] => exact ⟨p, rfl, rfl⟩
    | q :: rest =>
      obtain ⟨q', hq', hlast⟩ := ih (by simp) (fun x hx => h x (List.mem_cons_of_mem _ hx))
      have hJ : joinSep sep (q :: rest) ≠ [] :=
        joinSep_ne_nil q rest (h q (List.mem_cons_of_mem _ (List.mem_cons_self _ _)))
      refine ⟨q', by rw [List.getLast?_cons_cons]; exact hq', ?_⟩
      show (p ++ sep :: joinSep sep (q :: rest)).getLast? = q'.getLast?
      rw [List.getLast?_append, getLast?_cons_of_ne_nil sep _ hJ, hlast]
      have hq'ne : q' ≠ [] := h q' (List.mem_cons_of_mem _ (mem_of_getLast?_eq _ _ hq'))
      match q' with
      | [] => cases hq'ne rfl
      | a :: q'' =>
        rw [show ((a :: q'' : Str).getLast?) = some ((a :: q'').getLast (by simp)) from
          List.getLast?_eq_getLast _ _]
        rfl

theorem pyLines_joinSep (ps : List Str) (hne : ps ≠ [])
    (hnonl : ∀ p ∈ ps, '\n' ∉ p) (hlast : ps.getLast? ≠ some []) :
    pyLines (joinSep '\n' ps) = ps := by
  have hsplit := splitOnChar_joinSep ps hne hnonl
  have hjne : joinSep '\n' ps ≠ [] := by
    match ps with
    | [p] =>
      intro hc
      exact hlast (by simp [joinSep] at hc ⊢; exact hc)
    | p :: q :: rest => exact fun hc => by simp [joinSep] at hc
  unfold pyLines
  rw [if_neg hjne, hsplit, if_neg ?_]
  intro hc
  exact hlast hc

theorem pyLines_append_newline (hl : Str) (hne : hl ≠ []) (hnonl : '\n' ∉ hl) :
    pyLines (hl ++ ['\n']) = [hl] := by
  have hform : hl ++ ['\n'] = joinSep '\n' [hl, []] := rfl
  have hsplit : splitOnChar '\n' (hl ++ ['\n']) = [hl, []] := by
    rw [hform]
    apply splitOnChar_joinSep _ (by simp)
    intro p hp
    rcases List.mem_cons.mp hp with h1 | h2
    · rw [h1]; exact hnonl
    · simp at h2
      rw [h2]
      simp
  have hjne : ¬hl ++ ['\n'] = [] := by simp
  simp [pyLines, hjne, hsplit]

theorem lstripHashSpace_header (nm : Str)
    (h : ∀ c, nm.head? = some c → ¬c = '#' ∧ ¬c = ' ') :
    lstripHashSpace ('#' :: ' ' :: nm) = nm := by
  show List.dropWhile _ ('#' :: ' ' :: nm) = nm
  rw [List.dropWhile_cons, if_pos (by simp), List.dropWhile_cons, if_pos (by simp)]
  apply dropWhile_eq_self_of_head
  intro c hc
  obtain ⟨h1, h2⟩ := h c hc
  simp [h1, h2]

theorem dedupFirst_of_nodup [DecidableEq κ] (l : List κ) (h : l.Nodup) :
    dedupFirst l = l := by
  induction l with
  | nil => rfl
  | cons k t ih =>
    obtain ⟨hk, ht⟩ := List.nodup_cons.mp h
    show k :: (dedupFirst t).filter (fun x => x ≠ k) = k :: t
    rw [ih ht, List.filter_eq_self.mpr]
    intro a ha
    simp only [ne_eq, decide_eq_true_eq]
    exact fun hak => hk (hak ▸ ha)

/-! ### Unpacking the round-trip side conditions -/

theorem tokenShape_spec (s : Str) (h : tokenShape s = true) :
    s ≠ [] ∧ '\t' ∉ s ∧ '\n' ∉ s ∧
      (∀ c, s.head? = some c → isPySpace c = false) ∧
      (∀ c, s.getLast? = some c → isPySpace c = false) := by
  unfold tokenShape at h
  simp only [Bool.and_eq_true] at h
  obtain ⟨⟨⟨h1, h2⟩, h3⟩, h4⟩ := h
  refine ⟨?_, ?_, ?_, ?_, ?_⟩
  · intro hc
    rw [hc] at h1
    simp at h1
  · intro hmem
    have := List.all_eq_true.mp h2 _ hmem
    simp at this
  · intro hmem
    have := List.all_eq_true.mp h2 _ hmem
    simp at this
  · intro c hc
    rw [hc] at h3
    simpa using h3
  · intro c hc
    rw [hc] at h4
    simpa using h4

theorem goodName_spec (nm : Str) (h : goodName nm = true) :
    tokenShape nm = true ∧ ∀ c, nm.head? = some c → ¬c = '#' ∧ ¬c = ' ' := by
  unfold goodName at h
  simp only [Bool.and_eq_true] at h
  obtain ⟨h1, h2⟩ := h
  refine ⟨h1, fun c hc => ?_⟩
  rw [hc] at h2
  simpa using h2

theorem goodValue_token (v : Option Str) (h : goodValue v = true) :
    tokenShape (valueToken v) = true ∧
      (if valueToken v = ['-'] then none else some (valueToken v)) = v := by
  match v with
  | none => exact ⟨by decide, by decide⟩
  | some s =>
    unfold goodValue at h
    simp only [Bool.and_eq_true] at h
    obtain ⟨h1, h2⟩ := h
    refine ⟨h1, ?_⟩
    rw [if_neg (by simpa using h2)]
    rfl

theorem forall₂_get?_rel {R : β → γ → Prop} {l : List β} {r : List γ}
    (h : List.Forall₂ R l r) (j : Nat) :
    (∃ a b, l.get? j = some a ∧ r.get? j = some b ∧ R a b) ∨
      (l.get? j = none ∧ r.get? j = none) := by
  induction h generalizing j with
  | nil => exact Or.inr ⟨rfl, rfl⟩
  | cons hR ht ih =>
    match j with
    | 0 => exact Or.inl ⟨_, _, rfl, rfl, hR⟩
    | j + 1 => exact ih j

/-- C2, counterexample: the one-field dataset `{a: [""]}` contains no
missing-sentinel value, yet storing it writes `"# a\n"` followed by an
empty data line, which loading skips as blank — the loaded dataset has 0
rows where the original has 1, so the round trip does not reproduce the
row count. -/
theorem spec_C2_counterexample :
    (Dataset.mk [((['a'] : Str), [some ([] : Str)])]).writeConll =
      some ('#' :: ' ' :: 'a' :: '\n' :: []) ∧
      loadConll ('#' :: ' ' :: 'a' :: '\n' :: []) = some ⟨[(['a'], [])]⟩ ∧
      (Dataset.mk [((['a'] : Str), [some ([] : Str)])]).len = 1 ∧
      (Dataset.mk [((['a'] : Str), ([] : List (Option Str)))]).len = 0 :=
  ⟨by decide, by decide, by decide, by decide⟩

/-! ### Round-trip helper lemmas -/

theorem getItem_facts (ds : Dataset κ α)
    (hinv : ∀ p ∈ ds.fields, p.2.length = ds.len) (i : Nat) (hi : i < ds.len) :
    ∃ row, ds.getItem i = some row ∧ row.length = ds.fields.length ∧
      ∀ j, row.get? j =
        (ds.fields.get? j).bind (fun p => (p.2.get? i).map (fun v => (p.1, v))) := by
  have hex : ∀ p ∈ ds.fields, ∃ q,
      (p.2.get? i).map (fun v => (p.1, v)) = some q := by
    intro p hp
    have hlen : i < p.2.length := by rw [hinv p hp]; exact hi
    exact ⟨(p.1, p.2.get ⟨i, hlen⟩), by rw [List.get?_eq_get hlen]; rfl⟩
  obtain ⟨row, hrow⟩ := mapMO_exists_of_forall hex
  have hF := mapMO_eq_some_iff.mp hrow
  refine ⟨row, hrow, (List.Forall₂.length_eq hF).symm, ?_⟩
  intro j
  rcases forall₂_get?_rel hF j with ⟨a, b, ha, hb, hR⟩ | ⟨ha, hb⟩
  · rw [hb, ha]
    exact hR.symm
  · rw [hb, ha]
    rfl

theorem getItem_mem (ds : Dataset κ α) (i : Nat) (row : List (κ × α))
    (h : ds.getItem i = some row) :
    ∀ q ∈ row, ∃ p ∈ ds.fields, q.1 = p.1 ∧ q.2 ∈ p.2 := by
  intro q hq
  have hF := mapMO_eq_some_iff.mp h
  obtain ⟨p, hp, hR⟩ := forall₂_mem_right hF q hq
  match hv : p.2.get? i with
  | none => rw [hv] at hR; cases hR
  | some v =>
    rw [hv] at hR
    cases hR
    exact ⟨p, hp, rfl, List.get?_mem hv⟩

theorem getItem_length (ds : Dataset κ α) (i : Nat) (row : List (κ × α))
    (h : ds.getItem i = some row) : row.length = ds.fields.length :=
  (List.Forall₂.length_eq (mapMO_eq_some_iff.mp h)).symm

theorem row_tokens_good (ds : Dataset Str (Option Str))
    (hvals : ∀ p ∈ ds.fields, ∀ v ∈ p.2, goodValue v = true)
    (i : Nat) (row : List (Str × Option Str)) (hrow : ds.getItem i = some row) :
    ∀ s ∈ row.map (fun q => valueToken q.2), tokenShape s = true := by
  intro s hs
  obtain ⟨q, hq, rfl⟩ := List.mem_map.mp hs
  obtain ⟨p, hp, _, hv⟩ := getItem_mem ds i row hrow q hq
  exact (goodValue_token q.2 (hvals p hp q.2 hv)).1

theorem rowLine_facts (ds : Dataset Str (Option Str)) (hne : ds.fields ≠ [])
    (hvals : ∀ p ∈ ds.fields, ∀ v ∈ p.2, goodValue v = true)
    (i : Nat) (row : List (Str × Option Str)) (hrow : ds.getItem i = some row) :
    pyStrip (joinTab (row.map (fun q => valueToken q.2))) =
        joinTab (row.map (fun q => valueToken q.2)) ∧
      joinTab (row.map (fun q => valueToken q.2)) ≠ [] ∧
      '\n' ∉ joinTab (row.map (fun q => valueToken q.2)) ∧
      splitTab (joinTab (row.map (fun q => valueToken q.2))) =
        row.map (fun q => valueToken q.2) := by
  have hgood := row_tokens_good ds hvals i row hrow
  have hrowne : row ≠ [] := by
    intro hc
    have := getItem_length ds i row hrow
    rw [hc] at this
    exact hne (List.length_eq_zero.mp this.symm)
  match hm : row.map (fun q => valueToken q.2) with
  | [] => exact absurd (List.map_eq_nil.mp hm) hrowne
  | t0 :: ts =>
    rw [hm] at hgood
    rw [hm]
    simp only [joinTab, splitTab]
    have ht0 := tokenShape_spec t0 (hgood t0 (List.mem_cons_self _ _))
    have hAllNe : ∀ s ∈ t0 :: ts, s ≠ [] :=
      fun s hs => (tokenShape_spec s (hgood s hs)).1
    have hNoTab : ∀ s ∈ t0 :: ts, '\t' ∉ s :=
      fun s hs => (tokenShape_spec s (hgood s hs)).2.1
    have hNoNl : ∀ s ∈ t0 :: ts, '\n' ∉ s :=
      fun s hs => (tokenShape_spec s (hgood s hs)).2.2.1
    refine ⟨?_, joinSep_ne_nil t0 ts ht0.1, not_mem_joinSep (by decide) _ hNoNl,
      splitOnChar_joinSep _ (by simp) hNoTab⟩
    apply pyStrip_eq_self
    · intro c hc
      rw [head?_joinSep t0 ts ht0.1] at hc
      exact ht0.2.2.2.1 c hc
    · intro c hc
      obtain ⟨q, hq, hlast⟩ := getLast?_joinSep '\t' (t0 :: ts) (by simp) hAllNe
      rw [hlast] at hc
      exact (tokenShape_spec q (hgood q (mem_of_getLast?_eq _ _ hq))).2.2.2.2 c hc

theorem parse_rowLine (ds : Dataset Str (Option Str)) (hne : ds.fields ≠ [])
    (hvals : ∀ p ∈ ds.fields, ∀ v ∈ p.2, goodValue v = true)
    (i : Nat) (row : List (Str × Option Str)) (hrow : ds.getItem i = some row) :
    parseDataLine ds.names.length (joinTab (row.map (fun q => valueToken q.2))) =
      some (row.map (fun q => q.2)) := by
  have hsplit := (rowLine_facts ds hne hvals i row hrow).2.2.2
  have hlen : (row.map (fun q => valueToken q.2)).length = ds.names.length := by
    rw [List.length_map, getItem_length ds i row hrow, Dataset.names, List.length_map]
  have hdecode : (row.map (fun q => valueToken q.2)).map
      (fun e => if e = ['-'] then none else some e) = row.map (fun q => q.2) := by
    rw [List.map_map]
    apply List.map_congr_left
    intro q hq
    obtain ⟨p, hp, _, hv⟩ := getItem_mem ds i row hrow q hq
    exact (goodValue_token q.2 (hvals p hp q.2 hv)).2
  have hnames_len : ds.names.length = ds.fields.length := by simp [Dataset.names]
  have hrowlen : row.length = ds.fields.length := getItem_length ds i row hrow
  unfold parseDataLine
  rw [hsplit, hdecode]
  rw [if_pos (by simp only [List.length_map]; omega)]
  rw [show ds.names.length = (row.map (fun q => q.2)).length by
    simp only [List.length_map]; omega]
  rw [List.take_length]

theorem header_facts (ds : Dataset Str (Option Str)) (hne : ds.fields ≠ [])
    (hnodup : ds.names.Nodup) (hnames : ∀ nm ∈ ds.names, goodName nm = true) :
    pyStrip ('#' :: ' ' :: joinTab ds.names) = '#' :: ' ' :: joinTab ds.names ∧
      '\n' ∉ ('#' :: ' ' :: joinTab ds.names) ∧
      headerNames ('#' :: ' ' :: joinTab ds.names) = ds.names := by
  have hnamesne : ds.names ≠ [] := by
    intro hc
    exact hne (List.map_eq_nil.mp hc)
  match hm : ds.names with
  | [] => exact absurd hm hnamesne
  | nm0 :: nrest =>
    rw [hm] at hnames hnodup
    have h0 := goodName_spec nm0 (hnames nm0 (List.mem_cons_self _ _))
    have ht0 := tokenShape_spec nm0 h0.1
    have hAllNe : ∀ s ∈ nm0 :: nrest, s ≠ [] :=
      fun s hs => (tokenShape_spec s (goodName_spec s (hnames s hs)).1).1
    have hNoTab : ∀ s ∈ nm0 :: nrest, '\t' ∉ s :=
      fun s hs => (tokenShape_spec s (goodName_spec s (hnames s hs)).1).2.1
    have hNoNl : ∀ s ∈ nm0 :: nrest, '\n' ∉ s :=
      fun s hs => (tokenShape_spec s (goodName_spec s (hnames s hs)).1).2.2.1
    have hstrip : pyStrip ('#' :: ' ' :: joinTab (nm0 :: nrest)) =
        '#' :: ' ' :: joinTab (nm0 :: nrest) := by
      apply pyStrip_eq_self
      · intro c hc
        cases hc
        decide
      · intro c hc
        have hJne : joinTab (nm0 :: nrest) ≠ [] := joinSep_ne_nil nm0 nrest ht0.1
        rw [show (('#' :: ' ' :: joinTab (nm0 :: nrest)).getLast?) =
            (joinTab (nm0 :: nrest)).getLast? by
          rw [getLast?_cons_of_ne_nil '#' _ (by simp),
            getLast?_cons_of_ne_nil ' ' _ hJne]] at hc
        obtain ⟨q, hq, hlast⟩ :=
          getLast?_joinSep '\t' (nm0 :: nrest) (by simp) hAllNe
        simp only [joinTab] at hc
        rw [hlast] at hc
        exact (tokenShape_spec q
          (goodName_spec q (hnames q (mem_of_getLast?_eq _ _ hq))).1).2.2.2.2 c hc
    have hsplitJ : splitTab (joinTab (nm0 :: nrest)) = nm0 :: nrest :=
      splitOnChar_joinSep _ (by simp) hNoTab
    have hsplitHdr : splitTab ('#' :: ' ' :: joinTab (nm0 :: nrest)) =
        ('#' :: ' ' :: nm0) :: nrest := by
      have := splitOnChar_append '\t' ['#', ' '] (by decide)
        (joinTab (nm0 :: nrest)) hsplitJ
      simpa using this
    refine ⟨hstrip, ?_, ?_⟩
    · intro hmem
      rcases List.mem_cons.mp hmem with h1 | h2
      · cases h1
      · rcases List.mem_cons.mp h2 with h3 | h4
        · cases h3
        · exact not_mem_joinSep (by decide) _ hNoNl h4
    · unfold headerNames
      rw [hstrip, hsplitHdr]
      show dedupFirst (lstripHashSpace ('#' :: ' ' :: nm0) :: nrest) = nm0 :: nrest
      rw [lstripHashSpace_header nm0 h0.2]
      exact dedupFirst_of_nodup _ hnodup

theorem getItem_get? (ds : Dataset κ α) (i : Nat) (row : List (κ × α))
    (h : ds.getItem i = some row) (j : Nat) :
    row.get? j = (ds.fields.get? j).bind (fun p => (p.2.get? i).map (fun v => (p.1, v))) := by
  have hF := mapMO_eq_some_iff.mp h
  rcases forall₂_get?_rel hF j with ⟨a, b, ha, hb, hR⟩ | ⟨ha, hb⟩
  · rw [hb, ha]
    exact hR.symm
  · rw [hb, ha]
    rfl

theorem pyLines_header_body (hd : Str) (lines : List Str) (hdne : hd ≠ [])
    (hdnl : '\n' ∉ hd) (hlnl : ∀ l ∈ lines, '\n' ∉ l) (hlne : ∀ l ∈ lines, l ≠ []) :
    pyLines (hd ++ '\n' :: joinSep '\n' lines) = hd :: lines := by
  match lines with
  | [] =>
    show pyLines (hd ++ ['\n']) = [hd]
    exact pyLines_append_newline hd hdne hdnl
  | l0 :: lrest =>
    have hform : hd ++ '\n' :: joinSep '\n' (l0 :: lrest) =
        joinSep '\n' (hd :: l0 :: lrest) := rfl
    rw [hform]
    refine pyLines_joinSep _ (by simp) ?_ ?_
    · intro p hp
      rcases List.mem_cons.mp hp with h1 | h2
      · rw [h1]; exact hdnl
      · exact hlnl p h2
    · intro hc
      rw [List.getLast?_cons_cons] at hc
      exact hlne [] (mem_of_getLast?_eq _ _ hc) rfl

theorem rebuild_fields (ds : Dataset Str (Option Str))
    (hinv : ∀ p ∈ ds.fields, p.2.length = ds.len)
    (rows : List (List (Option Str))) (hrowslen : rows.length = ds.len)
    (hrowval : ∀ i, i < ds.len → ∃ row, ds.getItem i = some row ∧
      rows.get? i = some (row.map (fun q => q.2))) :
    ds.names.enum.map (fun p => (p.2, rows.map (fun r => r.getD p.1 none))) = ds.fields := by
  have hnames_len : ds.names.length = ds.fields.length := by simp [Dataset.names]
  apply List.ext_get?
  intro j
  rw [List.get?_map]
  by_cases hj : j < ds.fields.length
  · obtain ⟨pj, hpj⟩ : ∃ p, ds.fields.get? j = some p := ⟨_, List.get?_eq_get hj⟩
    have hnj : ds.names.get? j = some pj.1 := by
      show (ds.fields.map Prod.fst).get? j = some pj.1
      rw [List.get?_map, hpj]
      rfl
    have henum : ds.names.enum.get? j = some (j, pj.1) := by
      rw [List.get?_eq_getElem?, List.getElem?_enum, ← List.get?_eq_getElem?, hnj]
      rfl
    rw [henum, hpj]
    have hcol : rows.map (fun r => r.getD j none) = pj.2 := by
      apply List.ext_get?
      intro i
      rw [List.get?_map]
      by_cases hi : i < ds.len
      · obtain ⟨row, hrow, hri⟩ := hrowval i hi
        rw [hri]
        have hplen : i < pj.2.length := by
          rw [hinv pj (List.get?_mem hpj)]
          exact hi
        obtain ⟨v, hv⟩ : ∃ v, pj.2.get? i = some v := ⟨_, List.get?_eq_get hplen⟩
        have hrj : row.get? j = (pj.2.get? i).map (fun v => (pj.1, v)) := by
          have := getItem_get? ds i row hrow j
          rw [hpj] at this
          exact this
        rw [hv] at hrj
        rw [hv]
        show some ((row.map (fun q => q.2)).getD j none) = some v
        rw [List.getD_eq_get?, List.get?_map, hrj]
        rfl
      · have h1 : rows.get? i = none := List.get?_eq_none.mpr (by omega)
        have h2 : pj.2.get? i = none := List.get?_eq_none.mpr (by
          rw [hinv pj (List.get?_mem hpj)]
          omega)
        rw [h1, h2]
        rfl
    show some (pj.1, rows.map (fun r => r.getD j none)) = some pj
    rw [hcol]
  · have h1 : ds.names.enum.get? j = none := List.get?_eq_none.mpr (by
      rw [List.enum_length]
      omega)
    have h2 : ds.fields.get? j = none := List.get?_eq_none.mpr (by omega)
    rw [h1, h2]
    rfl

/-- C2, amended: `write_conll` followed by `load_conll` reproduces the
dataset exactly — same field names in order, same row count, every string
value read back equal to the written token, and the missing sentinel
round-tripping through `'-'` — provided the dataset has at least one field,
its field names are distinct, nonempty, tab- and newline-free, with no
leading `'#'`/`' '` and no surrounding whitespace, and every string value
is nonempty, tab- and newline-free, has no surrounding whitespace, and is
not the literal `"-"`. -/
theorem spec_C2 (ds : Dataset Str (Option Str))
    (hinv : ∀ p ∈ ds.fields, p.2.length = ds.len)
    (hne : ds.fields ≠ [])
    (hnodup : ds.names.Nodup)
    (hnames : ∀ nm ∈ ds.names, goodName nm = true)
    (hvals : ∀ p ∈ ds.fields, ∀ v ∈ p.2, goodValue v = true) :
    ∃ out, ds.writeConll = some out ∧ loadConll out = some ds := by
  have hrowline_ex : ∀ i ∈ List.range ds.len, ∃ l, ds.rowLine i = some l := by
    intro i hi
    obtain ⟨row, hrow, _, _⟩ := getItem_facts ds hinv i (List.mem_range.mp hi)
    refine ⟨joinTab (row.map (fun q => valueToken q.2)), ?_⟩
    unfold Dataset.rowLine
    rw [hrow]
    rfl
  obtain ⟨lines, hlines⟩ := mapMO_exists_of_forall hrowline_ex
  have hlF := mapMO_eq_some_iff.mp hlines
  have hlineslen : lines.length = ds.len := by
    have := List.Forall₂.length_eq hlF
    simpa using this.symm
  have hmemline : ∀ l ∈ lines, ∃ i row, i < ds.len ∧ ds.getItem i = some row ∧
      l = joinTab (row.map (fun q => valueToken q.2)) := by
    intro l hl
    obtain ⟨i, hiR, hRl⟩ := forall₂_mem_right hlF l hl
    unfold Dataset.rowLine at hRl
    match hrow : ds.getItem i with
    | none => rw [hrow] at hRl; cases hRl
    | some row =>
      rw [hrow] at hRl
      cases hRl
      exact ⟨i, row, List.mem_range.mp hiR, hrow, rfl⟩
  have hlinefacts : ∀ l ∈ lines, pyStrip l = l ∧ l ≠ [] ∧ '\n' ∉ l := by
    intro l hl
    obtain ⟨i, row, hi, hrow, rfl⟩ := hmemline l hl
    obtain ⟨h1, h2, h3, _⟩ := rowLine_facts ds hne hvals i row hrow
    exact ⟨h1, h2, h3⟩
  obtain ⟨hhstrip, hhnl, hhnames⟩ := header_facts ds hne hnodup hnames
  have hout : ds.writeConll = some (('#' :: ' ' :: joinTab ds.names) ++
      '\n' :: joinSep '\n' lines) := by
    have hw : ds.writeConll = some (('#' :: ' ' :: joinTab ds.names) ++ '\n' ::
        (lines.enum.map (fun p => if p.1 ≠ ds.len - 1 then p.2 ++ ['\n'] else p.2)).flatten) := by
      unfold Dataset.writeConll Dataset.rowLines
      rw [hlines]
    have hj := flat_enumFrom_join '\n' lines 0 ds.len (by simpa using hlineslen)
    rw [hw, List.enum_eq_enumFrom, hj]
  refine ⟨('#' :: ' ' :: joinTab ds.names) ++ '\n' :: joinSep '\n' lines, hout, ?_⟩
  unfold loadConll
  rw [pyLines_header_body ('#' :: ' ' :: joinTab ds.names) lines (by simp) hhnl
    (fun l hl => (hlinefacts l hl).2.2) (fun l hl => (hlinefacts l hl).2.1)]
  simp only [loadConllLines]
  rw [hhnames]
  have hmapstrip : lines.map pyStrip = lines := by
    have := List.map_congr_left (l := lines) (f := pyStrip) (g := id)
      (fun l hl => (hlinefacts l hl).1)
    rw [this, List.map_id]
  have hfilter : lines.filter (fun l => l ≠ []) = lines :=
    List.filter_eq_self.mpr (fun a ha => by simp [(hlinefacts a ha).2.1])
  rw [hmapstrip, hfilter]
  have hparse_ex : ∀ l ∈ lines, ∃ r, parseDataLine ds.names.length l = some r := by
    intro l hl
    obtain ⟨i, row, hi, hrow, rfl⟩ := hmemline l hl
    exact ⟨row.map (fun q => q.2), parse_rowLine ds hne hvals i row hrow⟩
  obtain ⟨rows, hrows⟩ := mapMO_exists_of_forall hparse_ex
  have hrF := mapMO_eq_some_iff.mp hrows
  rw [hrows]
  have hrowslen : rows.length = ds.len := by
    rw [← hlineslen]
    exact (List.Forall₂.length_eq hrF).symm
  have hrowval : ∀ i, i < ds.len → ∃ row, ds.getItem i = some row ∧
      rows.get? i = some (row.map (fun q => q.2)) := by
    intro i hi
    have hr : (List.range ds.len).get? i = some i := List.get?_range hi
    obtain ⟨l, hl, hRl⟩ := forall₂_get?_left hlF i i hr
    obtain ⟨r, hr2, hRr⟩ := forall₂_get?_left hrF i l hl
    unfold Dataset.rowLine at hRl
    match hrow : ds.getItem i with
    | none => rw [hrow] at hRl; cases hRl
    | some row =>
      rw [hrow] at hRl
      cases hRl
      have hp := parse_rowLine ds hne hvals i row hrow
      rw [hp] at hRr
      injection hRr with hRr
      exact ⟨row, rfl, by rw [hr2, hRr]⟩
  have hfields := rebuild_fields ds hinv rows hrowslen hrowval
  show (Dataset.init (ds.names.enum.map
    (fun p => (p.2, rows.map (fun r => r.getD p.1 none))))).toOption = some ds
  rw [hfields]
  have hlen_mk : (Dataset.mk ds.fields).len = ds.len := by
    cases ds
    rfl
  have hinit := init_ok_of_invariant ds.fields (by
    intro p hp
    rw [hlen_mk]
    exact hinv p hp)
  rw [hinit]
  have heta : Dataset.mk ds.fields = ds := by
    cases ds
    rfl
  rw [heta]
  rfl

/-- Witness for C2's amended statement on the dataset
`{word: [Alice, Bob], tag: [NNP, missing]}`. -/
theorem spec_C2_witness :
    ∃ out,
      (Dataset.mk [("word".data, [some "Alice".data, some "Bob".data]),
          ("tag".data, [some "NNP".data, none])]).writeConll = some out ∧
      loadConll out =
        some (Dataset.mk [("word".data, [some "Alice".data, some "Bob".data]),
          ("tag".data, [some "NNP".data, none])]) :=
  spec_C2 (Dataset.mk [("word".data, [some "Alice".data, some "Bob".data]),
      ("tag".data, [some "NNP".data, none])])
    (by decide) (by decide) (by decide) (by decide) (by decide)

end StanzaDataset
